import Mathlib

/-!
# Verification of `argostranslate/sbd.py` (few-shot sentence boundary detection)

This file embeds, shallowly, the algorithmic core of `src/argostranslate/sbd.py`:
the few-shot prompt builder (`generate_fewshot_sbd_prompt`), the response parser
(`parse_fewshot_response`), the alignment search (`process_seq2seq_sbd`) and the
orchestrator (`detect_sentence`), together with the part of the Python standard
library that the alignment search depends on: `difflib.SequenceMatcher` as constructed
by `SequenceMatcher()` (that is, `isjunk=None` — so the junk set is empty — and
`autojunk=True` — so "popular" elements are purged from `b2j` when `len(b) >= 200`).

Python strings are modelled as `List Char`; Python `None` returns are modelled by
`Option`.  `SequenceMatcher.ratio()` returns an IEEE double `2.0*matches/length`;
it is modelled here as the exact rational `2*matches/length`, since the claims
under study only concern comparisons of these values.
-/

set_option maxHeartbeats 1000000

namespace ArgosSBD

/-! ## Python string primitives -/

/-- A Python `str` is a sequence of characters. -/
abbrev Seq := List Char

/-- Character access `s[i]` for an in-range index (all uses below are in range;
the default is irrelevant). -/
def charAt (s : Seq) (i : Nat) : Char := s.getD i 'a'

/-- Python `hay.find(needle)`: the smallest index at which `needle` occurs as a
substring of `hay`, or `None` standing for the Python `-1` (callers of this model
test the option instead of comparing with `-1`). -/
def strFind (hay needle : Seq) : Option Nat :=
  (List.range (hay.length + 1)).find? (fun i => needle.isPrefixOf (hay.drop i))

/-- Python `s[:n]` on a string (clamping at the length, as Python slices do). -/
def strTake (s : String) (n : Nat) : String := String.mk (s.data.take n)

/-- Python `s.split(sep)` for a non-empty separator `sep`: split at each
non-overlapping occurrence of `sep`, scanning left to right.  (Python raises
`ValueError` on an empty separator; this module only splits on `"-"*10` and
`"\n"`, both non-empty, so the empty-separator branch is never reached.) -/
def pySplit (sep : Seq) (s : Seq) : List Seq :=
  if hsep : sep.length = 0 then [s]
  else
    match hfind : strFind s sep with
    | none => [s]
    | some i => s.take i :: pySplit sep (s.drop (i + sep.length))
termination_by s.length
decreasing_by
  simp only [List.length_drop]
  have hlen : ∀ (u v : List Char), u.isPrefixOf v = true → u.length ≤ v.length := by
    intro u
    induction u with
    | nil => intro v _; exact Nat.zero_le _
    | cons a as ih =>
      intro v h
      cases v with
      | nil => simp [List.isPrefixOf] at h
      | cons b bs =>
        simp only [List.isPrefixOf, Bool.and_eq_true] at h
        have := ih bs h.2
        simp only [List.length_cons]
        omega
  have hle : i + sep.length ≤ s.length := by
    have hpf : sep.isPrefixOf (s.drop i) = true := by
      have := List.find?_some hfind
      simpa using this
    have := hlen sep (s.drop i) hpf
    simp only [List.length_drop] at this
    omega
  omega

/-! ## `difflib.SequenceMatcher`

Transcribed from the CPython file `difflib.py`, specialised to the construction used in
`process_seq2seq_sbd`: `SequenceMatcher()` followed by `set_seqs(a, b)` — hence
`isjunk=None` (the junk set `bjunk` is empty, `isbjunk` is constantly false) and
`autojunk=True`. -/

namespace Difflib

/-- The ascending list of indices `j` with `b[j] = c` (an entry of the `b2j`
dictionary before the autojunk purge). -/
def occurrences (b : Seq) (c : Char) : List Nat :=
  (List.range b.length).filter (fun j => b.get? j == some c)

/-- The autojunk rule of `SequenceMatcher.__chain_b`: when `len(b) >= 200`,
an element occurring more than `len(b) // 100 + 1` times is "popular" and its
entry is removed from `b2j`. -/
def isPopular (b : Seq) (c : Char) : Bool :=
  decide (200 ≤ b.length) && decide (b.length / 100 + 1 < b.count c)

/-- `b2j.get(c, [])` after the junk/popular purges (the junk purge is a no-op
since `isjunk=None`). -/
def b2j (b : Seq) (c : Char) : List Nat :=
  if isPopular b c then [] else occurrences b c

/-- `d.get(k, 0)` on an association list representing the dict `j2len`. -/
def lookupD (m : List (Nat × Nat)) (k : Nat) : Nat :=
  match m.find? (fun p => p.1 == k) with
  | some p => p.2
  | none => 0

/-- The running `(besti, bestj, bestsize)` triple of `find_longest_match`. -/
structure Best where
  besti : Nat
  bestj : Nat
  bestsize : Nat
  deriving Repr, DecidableEq

/-- The inner loop of `find_longest_match` over one row `i`: iterate over the
occurrence indices `j` of `a[i]` in `b` (ascending), skipping `j < blo`
(`continue`), stopping at `j >= bhi` (`break`); build the `newj2len` of the row
(`k = newj2len[j] = j2len.get(j-1, 0) + 1`, where `j2len` is the dict of the previous
row) and update the best triple on strict improvement `k > bestsize`
(`besti, bestj, bestsize = i-k+1, j-k+1, k`). -/
def scanRow (j2len : List (Nat × Nat)) (blo bhi i : Nat) :
    List Nat → List (Nat × Nat) → Best → List (Nat × Nat) × Best
  | [], acc, best => (acc, best)
  | j :: js, acc, best =>
    if j < blo then scanRow j2len blo bhi i js acc best
    else if bhi ≤ j then (acc, best)
    else
      let k := (if j = 0 then 0 else lookupD j2len (j - 1)) + 1
      let acc' := (j, k) :: acc
      let best' : Best := if best.bestsize < k then ⟨i + 1 - k, j + 1 - k, k⟩ else best
      scanRow j2len blo bhi i js acc' best'

/-- The outer loop of `find_longest_match` over the rows `i` of
`range(alo, ahi)`; `j2len` starts empty and is replaced by the `newj2len` of each
row. -/
def scanRows (a b : Seq) (blo bhi : Nat) :
    List Nat → List (Nat × Nat) → Best → Best
  | [], _, best => best
  | i :: is, j2len, best =>
    let step := scanRow j2len blo bhi i (b2j b (charAt a i)) [] best
    scanRows a b blo bhi is step.1 step.2

/-- First widening loop of `find_longest_match`: extend the match leftwards over
non-junk elements (`while besti > alo and bestj > blo and not isbjunk(b[bestj-1])
and a[besti-1] == b[bestj-1]`). -/
def extendLeft (a b : Seq) (isbjunk : Char → Bool) (alo blo : Nat) (best : Best) : Best :=
  if alo < best.besti ∧ blo < best.bestj ∧
      isbjunk (charAt b (best.bestj - 1)) = false ∧
      charAt a (best.besti - 1) = charAt b (best.bestj - 1) then
    extendLeft a b isbjunk alo blo ⟨best.besti - 1, best.bestj - 1, best.bestsize + 1⟩
  else best
termination_by best.besti
decreasing_by omega

/-- Second widening loop: extend the match rightwards over non-junk elements. -/
def extendRight (a b : Seq) (isbjunk : Char → Bool) (ahi bhi : Nat) (best : Best) : Best :=
  if best.besti + best.bestsize < ahi ∧ best.bestj + best.bestsize < bhi ∧
      isbjunk (charAt b (best.bestj + best.bestsize)) = false ∧
      charAt a (best.besti + best.bestsize) = charAt b (best.bestj + best.bestsize) then
    extendRight a b isbjunk ahi bhi ⟨best.besti, best.bestj, best.bestsize + 1⟩
  else best
termination_by ahi - (best.besti + best.bestsize)
decreasing_by omega

/-- Third widening loop: extend leftwards over junk elements (a no-op here since
`isjunk=None` makes `isbjunk` constantly false, but kept for faithfulness). -/
def extendLeftJunk (a b : Seq) (isbjunk : Char → Bool) (alo blo : Nat) (best : Best) : Best :=
  if alo < best.besti ∧ blo < best.bestj ∧
      isbjunk (charAt b (best.bestj - 1)) = true ∧
      charAt a (best.besti - 1) = charAt b (best.bestj - 1) then
    extendLeftJunk a b isbjunk alo blo ⟨best.besti - 1, best.bestj - 1, best.bestsize + 1⟩
  else best
termination_by best.besti
decreasing_by omega

/-- Fourth widening loop: extend rightwards over junk elements (again a no-op
for `isjunk=None`). -/
def extendRightJunk (a b : Seq) (isbjunk : Char → Bool) (ahi bhi : Nat) (best : Best) : Best :=
  if best.besti + best.bestsize < ahi ∧ best.bestj + best.bestsize < bhi ∧
      isbjunk (charAt b (best.bestj + best.bestsize)) = true ∧
      charAt a (best.besti + best.bestsize) = charAt b (best.bestj + best.bestsize) then
    extendRightJunk a b isbjunk ahi bhi ⟨best.besti, best.bestj, best.bestsize + 1⟩
  else best
termination_by ahi - (best.besti + best.bestsize)
decreasing_by omega

/-- `SequenceMatcher.find_longest_match(alo, ahi, blo, bhi)` for the matcher
`SequenceMatcher()` with `set_seqs(a, b)`: the dynamic-programming scan followed
by the four widening loops.  `isbjunk` is constantly false because
`isjunk=None` leaves `bjunk` empty. -/
def findLongestMatch (a b : Seq) (alo ahi blo bhi : Nat) : Best :=
  let isbjunk : Char → Bool := fun _ => false
  let scanned := scanRows a b blo bhi (List.range' alo (ahi - alo)) [] ⟨alo, blo, 0⟩
  extendRightJunk a b isbjunk ahi bhi
    (extendLeftJunk a b isbjunk alo blo
      (extendRight a b isbjunk ahi bhi
        (extendLeft a b isbjunk alo blo scanned)))

/-- The best triple stays inside the segment; moreover a size-zero best is still
the initial `(alo, blo, 0)`. -/
def BestInv (alo blo ahi bhi : Nat) (best : Best) : Prop :=
  alo ≤ best.besti ∧ blo ≤ best.bestj ∧
  (0 < best.bestsize → best.besti + best.bestsize ≤ ahi ∧ best.bestj + best.bestsize ≤ bhi) ∧
  (best.bestsize = 0 → best.besti = alo ∧ best.bestj = blo)

/-- Size bound for the `j2len` dict entering row `i`: runs end before row `i`
and, when non-trivial, inside the column window. -/
def MapBound (alo blo i : Nat) (p : List (Nat × Nat)) : Prop :=
  ∀ j, lookupD p j + alo ≤ i ∧ (0 < lookupD p j → lookupD p j + blo ≤ j + 1)

/-! ### Matching blocks and the ratio -/

/-- Fuel-indexed total size of the matching blocks collected by
`SequenceMatcher.get_matching_blocks` from the segment
`[alo, ahi) × [blo, bhi)`: the queue-driven loop of the Python code gathers one
block per segment (`find_longest_match`) and recurses on the sub-segments to the
left and to the right of it; sorting, merging adjacent blocks, and the
`(la, lb, 0)` terminator do not change the total size, which is all `ratio()`
consumes.  The fuel only serves the termination checker: since the best
match lies inside the segment (`flm_bounds` below), `ahi - alo` strictly
decreases along the recursion, so fuel `ahi - alo` always suffices
(`matchesInSegmentF_fuel` below). -/
def matchesInSegmentF (a b : Seq) : Nat → Nat → Nat → Nat → Nat → Nat
  | 0, _, _, _, _ => 0
  | fuel + 1, alo, ahi, blo, bhi =>
    match findLongestMatch a b alo ahi blo bhi with
    | ⟨bi, bj, bs⟩ =>
      if bs = 0 then 0
      else
        bs
        + (if alo < bi ∧ blo < bj then matchesInSegmentF a b fuel alo bi blo bj else 0)
        + (if bi + bs < ahi ∧ bj + bs < bhi then
            matchesInSegmentF a b fuel (bi + bs) ahi (bj + bs) bhi else 0)

/-- The total size of the matching blocks from `[alo, ahi) × [blo, bhi)`. -/
def matchesInSegment (a b : Seq) (alo ahi blo bhi : Nat) : Nat :=
  matchesInSegmentF a b (ahi - alo) alo ahi blo bhi

/-- `SequenceMatcher.ratio()` for `set_seqs(a, b)`: `2*matches/(la+lb)`, or `1`
when both sequences are empty (`_calculate_ratio`).  Python computes an IEEE
double; the exact rational is used here. -/
def ratioQ (a b : Seq) : Rat :=
  let ms := matchesInSegment a b 0 a.length 0 b.length
  let len := a.length + b.length
  if len = 0 then 1 else (2 * ms : Rat) / (len : Rat)

/-- The length of the run of cell-wise matches ending at cell `(i, j)` of the
scan of `find_longest_match(0, len a, 0, len b)` on sequences `a`, `b`: the
closed form of the `j2len` dynamic programming (an entry is live only when `j`
lies in `b2j b a[i]`, i.e. `b[j] = a[i]` and `b[j]` is not popular). -/
def segRunLen (a b : Seq) (i j : Nat) : Nat :=
  if j ∈ b2j b (charAt a i) then
    (if i = 0 ∨ j = 0 then 0 else segRunLen a b (i - 1) (j - 1)) + 1
  else 0
termination_by i
decreasing_by omega

end Difflib

/-! ## `argostranslate/sbd.py`: few-shot sentence boundary detection

The module-level constants and the four functions of the few-shot SBD core.
The `info(...)` calls of the source are logging side effects with no influence
on the returned values and are not modelled. -/

/-- The module constant `fewshot_prompt` (a triple-quoted literal). -/
def fewshot_prompt : String :=
  "<detect-sentence-boundaries> I walked down to the river. Then I went to the\nI walked down to the river. <sentence-boundary>\n----------\n<detect-sentence-boundaries> Argos Translate is machine translation software. It is also\nArgos Translate is machine translation software. <sentence-boundary>\n----------\n<detect-sentence-boundaries> Argos Translate is written in Python and uses OpenAI. It also supports\nArgos Translate is written in Python and uses OpenAI. <sentence-boundary>\n----------\n"

def DETECT_SENTENCE_BOUNDARIES_TOKEN : String := "<detect-sentence-boundaries>"

def SENTENCE_BOUNDARY_TOKEN : String := "<sentence-boundary>"

/-- `FEWSHOT_BOUNDARY_TOKEN = "-" * 10`. -/
def FEWSHOT_BOUNDARY_TOKEN : String := String.mk (List.replicate 10 '-')

/-- `generate_fewshot_sbd_prompt(input_text, sentence_guess_length=150)`:
`fewshot_prompt + "<detect-sentence-boundaries> " + input_text[:sentence_guess_length]`. -/
def generate_fewshot_sbd_prompt (input_text : String) (sentence_guess_length : Nat) : String :=
  let sentence_guess := strTake input_text sentence_guess_length
  fewshot_prompt ++ "<detect-sentence-boundaries> " ++ sentence_guess

/-- `parse_fewshot_response(response_text)`: split on the ten-dash separator,
fail (`None`) below 2 segments, take the second-to-last segment (`[-2]`), split
it on newlines, fail below 2 lines, return the last line (`[-1]`). -/
def parse_fewshot_response (response_text : String) : Option String :=
  let response := pySplit FEWSHOT_BOUNDARY_TOKEN.data response_text.data
  if response.length < 2 then none
  else
    let response2 := pySplit ['\n'] (response.getD (response.length - 2) [])
    if response2.length < 2 then none
    else some (String.mk (response2.getD (response2.length - 1) []))

/-- The candidate prefix lengths tried by the alignment search of
`process_seq2seq_sbd`: `for i in range(len(input_text))`. -/
def alignmentIndices (input_text : String) : List Nat :=
  List.range input_text.data.length

/-- The running `(best_index, best_ratio)` state of the alignment search;
`best_index` starts as Python `None`. -/
structure LoopSt where
  bestIndex : Option Nat
  bestRatio : Rat
  deriving DecidableEq

/-- The alignment loop of `process_seq2seq_sbd`: for each candidate index `i`,
compare `input_text[:i]` with the translated guess by
`SequenceMatcher.ratio()` and keep `i` when `best_index is None` or the ratio
strictly exceeds the best so far. -/
def sbdLoop (input_text guess : Seq) : List Nat → LoopSt → LoopSt
  | [], st => st
  | i :: is, st =>
    let ratio := Difflib.ratioQ (input_text.take i) guess
    let st' := if st.bestIndex = none ∨ st.bestRatio < ratio then ⟨some i, ratio⟩ else st
    sbdLoop input_text guess is st'

/-- `process_seq2seq_sbd(input_text, sbd_translated_guess)`.  Returns
`some (-1)` when the guess lacks `SENTENCE_BOUNDARY_TOKEN` (Python `-1`),
`some i` for the best alignment index, and `none` when the loop body never runs
(empty `input_text`), modelling the Python `None` that falls out of
`best_index = None`. -/
def process_seq2seq_sbd (input_text sbd_translated_guess : String) : Option Int :=
  match strFind sbd_translated_guess.data SENTENCE_BOUNDARY_TOKEN.data with
  | some idx =>
    let truncated := sbd_translated_guess.data.take idx
    let st := sbdLoop input_text.data truncated (alignmentIndices input_text) ⟨none, 0⟩
    match st.bestIndex with
    | some i => some (i : Int)
    | none => none
  | none => some (-1)

/-- `detect_sentence(input_text, sbd_translation, sentence_guess_length=150)`:
truncate to the guess window, translate
`DETECT_SENTENCE_BOUNDARIES_TOKEN + sentence_guess`, and locate the boundary.
The external `sbd_translation.translate` capability is modelled as an opaque
function on strings. -/
def detect_sentence (input_text : String) (sbd_translation : String → String)
    (sentence_guess_length : Nat) : Option Int :=
  let sentence_guess := strTake input_text sentence_guess_length
  let sbd_translated_guess :=
    sbd_translation (DETECT_SENTENCE_BOUNDARIES_TOKEN ++ sentence_guess)
  process_seq2seq_sbd input_text sbd_translated_guess


/-! ## Inputs and spec-side formulations used by the claims -/

/-- The candidate index list claimed by the specification for the alignment
search: "every integer `i` from 0 to `len(original)` inclusive". -/
def claimedAlignmentIndices (input_text : String) : List Nat :=
  List.range (input_text.data.length + 1)

/-- The translated guess of `process_seq2seq_sbd`: the candidate guess
truncated at the first occurrence of `SENTENCE_BOUNDARY_TOKEN` (the whole guess
when the marker is absent, in which case the alignment search is not reached). -/
def translatedGuess (guess : String) : Seq :=
  match strFind guess.data SENTENCE_BOUNDARY_TOKEN.data with
  | some idx => guess.data.take idx
  | none => guess.data

/-- Spec-side formulation of the parser (claim C7): split on the ten-dash
separator, fail below 2 segments, take the second-to-last segment, split it on
newlines, fail below 2 lines, return the last line — here phrased through the
reversed lists. -/
def parse_fewshot_response_spec (response_text : String) : Option String :=
  let segments := pySplit FEWSHOT_BOUNDARY_TOKEN.data response_text.data
  match segments.reverse with
  | _ :: liveAnswer :: _ =>
    let responseLines := pySplit ['\n'] liveAnswer
    match responseLines.reverse with
    | lastLine :: _ :: _ => some (String.mk lastLine)
    | _ => none
  | _ => none

/-- Spec-side formulation of the prompt builder (claim C8): the fixed few-shot
exemplar block verbatim, then the control token, then a single space, then the
first `sentence_guess_length` characters of the input. -/
def fewshot_sbd_prompt_spec (input_text : String) (sentence_guess_length : Nat) : String :=
  fewshot_prompt ++ (DETECT_SENTENCE_BOUNDARIES_TOKEN ++ (" " ++ strTake input_text sentence_guess_length))

/-- The input text of the end-to-end example of claim C1. -/
def riverText : String := "I walked down to the river. Then I went to the store."

/-- The stub translation capability of claim C1: always returns the marked
guess `"I walked down to the river.<sentence-boundary> Then I went"`. -/
def riverStub : String → String :=
  fun _ => "I walked down to the river.<sentence-boundary> Then I went"

/-! ## Theorems

First the invariants of `find_longest_match` and the fuel-sufficiency of
`matchesInSegmentF`, then the value of the ratio on the cases the claims need,
then the behaviour of the alignment loop, and finally one theorem (plus
witness or counterexample) per claim. -/

namespace Difflib

theorem BestInv_mk {alo blo ahi bhi bi bj bs : Nat}
    (h1 : alo ≤ bi) (h2 : blo ≤ bj)
    (h3 : 0 < bs → bi + bs ≤ ahi ∧ bj + bs ≤ bhi)
    (h4 : bs = 0 → bi = alo ∧ bj = blo) :
    BestInv alo blo ahi bhi ⟨bi, bj, bs⟩ :=
  ⟨h1, h2, h3, h4⟩

theorem BestInv_elim {alo blo ahi bhi bi bj bs : Nat}
    (h : BestInv alo blo ahi bhi ⟨bi, bj, bs⟩) :
    alo ≤ bi ∧ blo ≤ bj ∧
    (0 < bs → bi + bs ≤ ahi ∧ bj + bs ≤ bhi) ∧
    (bs = 0 → bi = alo ∧ bj = blo) :=
  h

theorem lookupD_cases (m : List (Nat × Nat)) (k : Nat) :
    lookupD m k = 0 ∨ (k, lookupD m k) ∈ m := by
  unfold lookupD
  cases hf : m.find? (fun p => p.1 == k) with
  | none => exact Or.inl rfl
  | some q =>
    right
    have hmem := List.mem_of_find?_eq_some hf
    have hkey := List.find?_some hf
    have : q.1 = k := by simpa using hkey
    cases q with
    | mk q1 q2 => simp_all

theorem MapBound_nil (alo blo i : Nat) (h : alo ≤ i) : MapBound alo blo i [] := by
  intro j
  simp [lookupD]
  omega

/-- From an entrywise bound on the accumulated `newj2len` of a row to the dict
bound used by the next row. -/
theorem MapBound_of_entries {alo blo i : Nat} {m : List (Nat × Nat)} (hi : alo ≤ i)
    (h : ∀ q ∈ m, q.2 + alo ≤ i + 1 ∧ q.2 + blo ≤ q.1 + 1) :
    MapBound alo blo (i + 1) m := by
  intro j
  rcases lookupD_cases m j with h0 | hmem
  · rw [h0]
    omega
  · have := h _ hmem
    simp only at this
    omega

theorem scanRow_inv {a : Seq} (p : List (Nat × Nat)) (alo blo ahi bhi i : Nat)
    (hmb : MapBound alo blo i p) (hi : alo ≤ i) (hia : i < ahi) :
    ∀ (js : List Nat) (acc : List (Nat × Nat)) (best : Best),
    BestInv alo blo ahi bhi best →
    (∀ q ∈ acc, q.2 + alo ≤ i + 1 ∧ q.2 + blo ≤ q.1 + 1) →
    BestInv alo blo ahi bhi (scanRow p blo bhi i js acc best).2 ∧
    (∀ q ∈ (scanRow p blo bhi i js acc best).1,
      q.2 + alo ≤ i + 1 ∧ q.2 + blo ≤ q.1 + 1) := by
  intro js
  induction js with
  | nil =>
    intro acc best hbest hacc
    exact ⟨hbest, hacc⟩
  | cons j js ih =>
    intro acc best hbest hacc
    by_cases hblo : j < blo
    · simpa [scanRow, hblo] using ih acc best hbest hacc
    · by_cases hbhi : bhi ≤ j
      · simp only [scanRow, if_neg hblo, if_pos hbhi]
        exact ⟨hbest, hacc⟩
      · simp only [scanRow, if_neg hblo, if_neg hbhi]
        have hbloj : blo ≤ j := by omega
        have hprev : (if j = 0 then 0 else lookupD p (j - 1)) + alo ≤ i ∧
            (0 < (if j = 0 then 0 else lookupD p (j - 1)) →
              (if j = 0 then 0 else lookupD p (j - 1)) + blo ≤ j) := by
          by_cases hj0 : j = 0
          · simp only [if_pos hj0]
            omega
          · simp only [if_neg hj0]
            have := hmb (j - 1)
            omega
        generalize (if j = 0 then 0 else lookupD p (j - 1)) = v at hprev ⊢
        have hentry : (v + 1) + alo ≤ i + 1 ∧ (v + 1) + blo ≤ j + 1 := by omega
        by_cases hupd : best.bestsize < v + 1
        · simp only [if_pos hupd]
          apply ih
          · exact BestInv_mk (by omega) (by omega)
              (fun _ => ⟨by omega, by omega⟩) (by omega)
          · intro q hq
            rcases List.mem_cons.mp hq with hq | hq
            · subst hq; simpa using hentry
            · exact hacc q hq
        · simp only [if_neg hupd]
          apply ih _ _ hbest
          intro q hq
          rcases List.mem_cons.mp hq with hq | hq
          · subst hq; simpa using hentry
          · exact hacc q hq

theorem scanRows_inv (a b : Seq) (alo blo ahi bhi : Nat) :
    ∀ (n i : Nat) (p : List (Nat × Nat)) (best : Best),
    alo ≤ i → i + n ≤ ahi →
    MapBound alo blo i p →
    BestInv alo blo ahi bhi best →
    BestInv alo blo ahi bhi (scanRows a b blo bhi (List.range' i n) p best) := by
  intro n
  induction n with
  | zero =>
    intro i p best _ _ _ hbest
    simpa [scanRows] using hbest
  | succ n ih =>
    intro i p best hi hn hmb hbest
    have hia : i < ahi := by omega
    have hrow := scanRow_inv (a := a) p alo blo ahi bhi i hmb hi hia
      (b2j b (charAt a i)) [] best hbest (by simp)
    simp only [List.range'_succ, scanRows]
    exact ih (i + 1) _ _ (by omega) (by omega)
      (MapBound_of_entries hi hrow.2) hrow.1

theorem extendLeft_inv (a b : Seq) (f : Char → Bool) (alo blo ahi bhi : Nat) :
    ∀ (n : Nat) (best : Best), best.besti ≤ n →
    BestInv alo blo ahi bhi best →
    BestInv alo blo ahi bhi (extendLeft a b f alo blo best) := by
  intro n
  induction n with
  | zero =>
    intro best hle hbest
    rw [extendLeft]
    have : ¬ (alo < best.besti ∧ blo < best.bestj ∧
        f (charAt b (best.bestj - 1)) = false ∧
        charAt a (best.besti - 1) = charAt b (best.bestj - 1)) := by
      intro h; omega
    simp only [if_neg this]
    exact hbest
  | succ n ih =>
    intro best hle hbest
    rw [extendLeft]
    by_cases hc : alo < best.besti ∧ blo < best.bestj ∧
        f (charAt b (best.bestj - 1)) = false ∧
        charAt a (best.besti - 1) = charAt b (best.bestj - 1)
    · simp only [if_pos hc]
      obtain ⟨h1, h2, h3, h4⟩ := hbest
      have hsum : 0 < best.bestsize →
          best.besti + best.bestsize ≤ ahi ∧ best.bestj + best.bestsize ≤ bhi := h3
      have hz := h4
      apply ih
      · simp only
        omega
      · apply BestInv_mk (by omega) (by omega)
        · intro _
          rcases Nat.eq_zero_or_pos best.bestsize with hzz | hzz
          · have := hz hzz; omega
          · have := hsum hzz; omega
        · omega
    · simp only [if_neg hc]
      exact hbest

theorem extendRight_inv (a b : Seq) (f : Char → Bool) (alo blo ahi bhi : Nat) :
    ∀ (n : Nat) (best : Best), ahi ≤ best.besti + best.bestsize + n →
    alo ≤ best.besti → blo ≤ best.bestj →
    BestInv alo blo ahi bhi best →
    BestInv alo blo ahi bhi (extendRight a b f ahi bhi best) := by
  intro n
  induction n with
  | zero =>
    intro best hle _ _ hbest
    rw [extendRight]
    have : ¬ (best.besti + best.bestsize < ahi ∧ best.bestj + best.bestsize < bhi ∧
        f (charAt b (best.bestj + best.bestsize)) = false ∧
        charAt a (best.besti + best.bestsize) = charAt b (best.bestj + best.bestsize)) := by
      intro h; omega
    simp only [if_neg this]
    exact hbest
  | succ n ih =>
    intro best hle hal hbl hbest
    rw [extendRight]
    by_cases hc : best.besti + best.bestsize < ahi ∧ best.bestj + best.bestsize < bhi ∧
        f (charAt b (best.bestj + best.bestsize)) = false ∧
        charAt a (best.besti + best.bestsize) = charAt b (best.bestj + best.bestsize)
    · simp only [if_pos hc]
      apply ih
      · simp only
        omega
      · simpa using hal
      · simpa using hbl
      · exact BestInv_mk hal hbl (fun _ => ⟨by omega, by omega⟩) (by omega)
    · simp only [if_neg hc]
      exact hbest

theorem extendLeftJunk_false (a b : Seq) (alo blo : Nat) (best : Best) :
    extendLeftJunk a b (fun _ => false) alo blo best = best := by
  rw [extendLeftJunk]
  simp

theorem extendRightJunk_false (a b : Seq) (ahi bhi : Nat) (best : Best) :
    extendRightJunk a b (fun _ => false) ahi bhi best = best := by
  rw [extendRightJunk]
  simp

/-- The best match returned by `find_longest_match` lies inside the segment. -/
theorem flm_bounds (a b : Seq) (alo ahi blo bhi : Nat) :
    BestInv alo blo ahi bhi (findLongestMatch a b alo ahi blo bhi) := by
  unfold findLongestMatch
  simp only [extendLeftJunk_false, extendRightJunk_false]
  have hinit : BestInv alo blo ahi bhi ⟨alo, blo, 0⟩ :=
    BestInv_mk (Nat.le_refl _) (Nat.le_refl _) (by omega) (fun _ => ⟨rfl, rfl⟩)
  have hscan : BestInv alo blo ahi bhi
      (scanRows a b blo bhi (List.range' alo (ahi - alo)) [] ⟨alo, blo, 0⟩) := by
    rcases Nat.le_total alo ahi with h | h
    · exact scanRows_inv a b alo blo ahi bhi (ahi - alo) alo [] ⟨alo, blo, 0⟩
        (Nat.le_refl _) (by omega) (MapBound_nil _ _ _ (Nat.le_refl _)) hinit
    · have : ahi - alo = 0 := by omega
      rw [this]
      simpa [scanRows] using hinit
  have hleft := extendLeft_inv a b (fun _ => false) alo blo ahi bhi _ _
    (Nat.le_refl _) hscan
  exact extendRight_inv a b (fun _ => false) alo blo ahi bhi _ _
    (Nat.le_add_left _ _) hleft.1 hleft.2.1 hleft

/-! ### Fuel sufficiency and the basic bounds of the ratio -/

theorem matchesInSegmentF_congr (a b : Seq) :
    ∀ N M alo ahi blo bhi, ahi - alo ≤ N → ahi - alo ≤ M →
    matchesInSegmentF a b N alo ahi blo bhi = matchesInSegmentF a b M alo ahi blo bhi := by
  intro N
  induction N with
  | zero =>
    intro M alo ahi blo bhi hN hM
    cases M with
    | zero => rfl
    | succ M =>
      simp only [matchesInSegmentF]
      cases hm : findLongestMatch a b alo ahi blo bhi with
      | mk bi bj bs =>
        by_cases hbs : bs = 0
        · simp [hbs]
        · exfalso
          obtain ⟨hb1, hb2, hb3, hb4⟩ := BestInv_elim (hm ▸ flm_bounds a b alo ahi blo bhi)
          have := hb3 (by omega)
          omega
  | succ N ih =>
    intro M alo ahi blo bhi hN hM
    cases M with
    | zero =>
      simp only [matchesInSegmentF]
      cases hm : findLongestMatch a b alo ahi blo bhi with
      | mk bi bj bs =>
        by_cases hbs : bs = 0
        · simp [hbs]
        · exfalso
          obtain ⟨hb1, hb2, hb3, hb4⟩ := BestInv_elim (hm ▸ flm_bounds a b alo ahi blo bhi)
          have := hb3 (by omega)
          omega
    | succ M =>
      simp only [matchesInSegmentF]
      cases hm : findLongestMatch a b alo ahi blo bhi with
      | mk bi bj bs =>
        by_cases hbs : bs = 0
        · simp [hbs]
        · obtain ⟨hb1, hb2, hb3, hb4⟩ := BestInv_elim (hm ▸ flm_bounds a b alo ahi blo bhi)
          have hbb := hb3 (by omega)
          simp only [if_neg hbs]
          have e2 : (if alo < bi ∧ blo < bj then matchesInSegmentF a b N alo bi blo bj else 0)
              = (if alo < bi ∧ blo < bj then matchesInSegmentF a b M alo bi blo bj else 0) := by
            by_cases h2 : alo < bi ∧ blo < bj
            · simp only [if_pos h2]
              exact ih M alo bi blo bj (by omega) (by omega)
            · simp [h2]
          have e3 : (if bi + bs < ahi ∧ bj + bs < bhi then
                matchesInSegmentF a b N (bi + bs) ahi (bj + bs) bhi else 0)
              = (if bi + bs < ahi ∧ bj + bs < bhi then
                matchesInSegmentF a b M (bi + bs) ahi (bj + bs) bhi else 0) := by
            by_cases h3 : bi + bs < ahi ∧ bj + bs < bhi
            · simp only [if_pos h3]
              exact ih M (bi + bs) ahi (bj + bs) bhi (by omega) (by omega)
            · simp [h3]
          rw [e2, e3]

/-- Any fuel at least `ahi - alo` computes `matchesInSegment`. -/
theorem matchesInSegmentF_fuel (a b : Seq) (N alo ahi blo bhi : Nat)
    (h : ahi - alo ≤ N) :
    matchesInSegmentF a b N alo ahi blo bhi = matchesInSegment a b alo ahi blo bhi :=
  matchesInSegmentF_congr a b N (ahi - alo) alo ahi blo bhi h (Nat.le_refl _)

theorem matchesInSegmentF_le (a b : Seq) :
    ∀ N alo ahi blo bhi,
    matchesInSegmentF a b N alo ahi blo bhi ≤ ahi - alo ∧
    matchesInSegmentF a b N alo ahi blo bhi ≤ bhi - blo := by
  intro N
  induction N with
  | zero =>
    intro alo ahi blo bhi
    exact ⟨Nat.zero_le _, Nat.zero_le _⟩
  | succ N ih =>
    intro alo ahi blo bhi
    simp only [matchesInSegmentF]
    cases hm : findLongestMatch a b alo ahi blo bhi with
    | mk bi bj bs =>
      by_cases hbs : bs = 0
      · simp [hbs]
      · obtain ⟨hb1, hb2, hb3, hb4⟩ := BestInv_elim (hm ▸ flm_bounds a b alo ahi blo bhi)
        have hbb := hb3 (by omega)
        simp only [if_neg hbs]
        have hL : (if alo < bi ∧ blo < bj then matchesInSegmentF a b N alo bi blo bj else 0)
              ≤ bi - alo ∧
            (if alo < bi ∧ blo < bj then matchesInSegmentF a b N alo bi blo bj else 0)
              ≤ bj - blo := by
          by_cases h2 : alo < bi ∧ blo < bj
          · simp only [if_pos h2]
            exact ih alo bi blo bj
          · simp [h2]
        have hR : (if bi + bs < ahi ∧ bj + bs < bhi then
              matchesInSegmentF a b N (bi + bs) ahi (bj + bs) bhi else 0) ≤ ahi - (bi + bs) ∧
            (if bi + bs < ahi ∧ bj + bs < bhi then
              matchesInSegmentF a b N (bi + bs) ahi (bj + bs) bhi else 0) ≤ bhi - (bj + bs) := by
          by_cases h3 : bi + bs < ahi ∧ bj + bs < bhi
          · simp only [if_pos h3]
            exact ih (bi + bs) ahi (bj + bs) bhi
          · simp [h3]
        omega

/-- The total matched size never exceeds either segment length. -/
theorem matchesInSegment_le (a b : Seq) (alo ahi blo bhi : Nat) :
    matchesInSegment a b alo ahi blo bhi ≤ ahi - alo ∧
    matchesInSegment a b alo ahi blo bhi ≤ bhi - blo :=
  matchesInSegmentF_le a b (ahi - alo) alo ahi blo bhi

/-- Sequences of different lengths have ratio strictly below `1` (the matched
size is at most the shorter length, hence less than the average length). -/
theorem ratioQ_lt_one_of_length_ne (a b : Seq) (h : a.length ≠ b.length) :
    ratioQ a b < 1 := by
  unfold ratioQ
  have hle := matchesInSegment_le a b 0 a.length 0 b.length
  simp only [Nat.sub_zero] at hle
  have hlen : ¬ (a.length + b.length = 0) := by omega
  simp only [if_neg hlen]
  rw [div_lt_one (by exact_mod_cast Nat.pos_of_ne_zero hlen)]
  have : 2 * matchesInSegment a b 0 a.length 0 b.length < a.length + b.length := by omega
  exact_mod_cast this

/-! ### The ratio of a sequence with itself

On identical sequences the scan of `find_longest_match` always ends on a
diagonal best block (`besti = bestj`): a run ending at an off-diagonal cell is
dominated by the diagonal run ending in the same row or column, which the
row-major scan with strict improvement visits first.  The two widening loops
then grow a diagonal block into the full segment, so the single matching block
covers everything and the ratio is `1`. -/

theorem lookupD_nil (x : Nat) : lookupD [] x = 0 := rfl

theorem lookupD_cons (j k x : Nat) (m : List (Nat × Nat)) :
    lookupD ((j, k) :: m) x = if j = x then k else lookupD m x := by
  unfold lookupD
  rw [List.find?_cons]
  by_cases h : j = x
  · have hb : ((j, k).1 == x) = true := by simp [h]
    simp [hb, h]
  · have hb : ((j, k).1 == x) = false := by simp [h]
    simp [hb, h]

theorem occurrences_mem {b : Seq} {c : Char} {j : Nat} :
    j ∈ occurrences b c ↔ j < b.length ∧ b.get? j = some c := by
  simp [occurrences, List.mem_filter, List.mem_range]

theorem b2j_mem {b : Seq} {c : Char} {j : Nat} (h : j ∈ b2j b c) :
    isPopular b c = false ∧ j < b.length ∧ b.get? j = some c := by
  unfold b2j at h
  by_cases hp : isPopular b c
  · simp [hp] at h
  · rw [if_neg hp] at h
    have hm := occurrences_mem.mp h
    exact ⟨by simpa using hp, hm.1, hm.2⟩

theorem mem_b2j {b : Seq} {c : Char} {j : Nat} (hp : isPopular b c = false)
    (hj : j < b.length) (hc : b.get? j = some c) : j ∈ b2j b c := by
  unfold b2j
  rw [hp]
  simpa using occurrences_mem.mpr ⟨hj, hc⟩

theorem b2j_pairwise (b : Seq) (c : Char) : (b2j b c).Pairwise (· < ·) := by
  unfold b2j
  by_cases hp : isPopular b c
  · simp [hp]
  · rw [if_neg hp]
    simpa [occurrences] using (List.pairwise_lt_range b.length).filter
      (fun j => b.get? j == some c)

theorem charAt_of_get? {b : Seq} {j : Nat} {c : Char} (h : b.get? j = some c) :
    charAt b j = c := by
  unfold charAt
  rw [List.getD_eq_getD_get?, h]
  rfl

theorem get?_charAt {b : Seq} {j : Nat} (h : j < b.length) :
    b.get? j = some (charAt b j) := by
  have hc : b.get? j = some (b.get ⟨j, h⟩) := List.get?_eq_get h
  rw [hc, charAt_of_get? hc]

/-- A run ending at `(i, j)` with `j ≤ i` is dominated by the diagonal run
ending at `(j, j)` (on identical sequences). -/
theorem segRunLen_le_diag_left (a : Seq) :
    ∀ i j, j ≤ i → segRunLen a a i j ≤ segRunLen a a j j := by
  intro i
  induction i using Nat.strong_induction_on with
  | _ i ih =>
    intro j hji
    by_cases hg : j ∈ b2j a (charAt a i)
    · obtain ⟨hpop, hjlen, hget⟩ := b2j_mem hg
      have hcj : charAt a j = charAt a i := charAt_of_get? hget
      have hgd : j ∈ b2j a (charAt a j) := by rw [hcj]; exact hg
      conv_lhs => rw [segRunLen]
      conv_rhs => rw [segRunLen]
      rw [if_pos hg, if_pos hgd]
      by_cases hj0 : j = 0
      · simp [hj0]
      · have hi0 : ¬ (i = 0 ∨ j = 0) := by omega
        have hj0' : ¬ (j = 0 ∨ j = 0) := by omega
        rw [if_neg hi0, if_neg hj0']
        have := ih (i - 1) (by omega) (j - 1) (by omega)
        omega
    · conv_lhs => rw [segRunLen]
      rw [if_neg hg]
      exact Nat.zero_le _

/-- A run ending at `(i, j)` with `i ≤ j` is dominated by the diagonal run
ending at `(i, i)` (on identical sequences; row `i` must be a real index). -/
theorem segRunLen_le_diag_right (a : Seq) :
    ∀ i j, i ≤ j → i < a.length → segRunLen a a i j ≤ segRunLen a a i i := by
  intro i
  induction i using Nat.strong_induction_on with
  | _ i ih =>
    intro j hij hilen
    by_cases hg : j ∈ b2j a (charAt a i)
    · obtain ⟨hpop, hjlen, hget⟩ := b2j_mem hg
      have hgd : i ∈ b2j a (charAt a i) := mem_b2j hpop hilen (get?_charAt hilen)
      conv_lhs => rw [segRunLen]
      conv_rhs => rw [segRunLen]
      rw [if_pos hg, if_pos hgd]
      by_cases hi0 : i = 0
      · simp [hi0]
      · have hj0 : ¬ (i = 0 ∨ j = 0) := by omega
        have hi0' : ¬ (i = 0 ∨ i = 0) := by omega
        rw [if_neg hj0, if_neg hi0']
        have := ih (i - 1) (by omega) (j - 1) (by omega) (by omega)
        omega
    · conv_lhs => rw [segRunLen]
      rw [if_neg hg]
      exact Nat.zero_le _

theorem segRunLen_eq_zero_of_not_mem {a : Seq} {i x : Nat}
    (hx : x ∉ b2j a (charAt a i)) : segRunLen a a i x = 0 := by
  rw [segRunLen, if_neg hx]

/-- The row scan on identical sequences: `j2len` computes `segRunLen`, the best
block stays diagonal, and its size dominates every run ending at a processed
cell. -/
theorem scanRowSym (a : Seq) (i : Nat) (hi : i < a.length) (p : List (Nat × Nat))
    (hp : ∀ x, lookupD p x = if i = 0 then 0 else segRunLen a a (i - 1) x) :
    ∀ (js : List Nat) (acc : List (Nat × Nat)) (best : Best),
    js.Pairwise (· < ·) →
    (∀ x ∈ js, x ∈ b2j a (charAt a i)) →
    (∀ x ∈ b2j a (charAt a i), x ∉ js → segRunLen a a i x ≤ best.bestsize) →
    (∀ i' x : Nat, i' < i → segRunLen a a i' x ≤ best.bestsize) →
    best.besti = best.bestj →
    (∀ x, lookupD acc x =
      if x ∈ b2j a (charAt a i) ∧ x ∉ js then segRunLen a a i x else 0) →
    (scanRow p 0 a.length i js acc best).2.besti
        = (scanRow p 0 a.length i js acc best).2.bestj ∧
    (∀ i' x : Nat, i' ≤ i → segRunLen a a i' x ≤ (scanRow p 0 a.length i js acc best).2.bestsize) ∧
    (∀ x, lookupD (scanRow p 0 a.length i js acc best).1 x = segRunLen a a i x) := by
  intro js
  induction js with
  | nil =>
    intro acc best _ _ hdoneRow hdoneRows hdiag hacc
    simp only [scanRow]
    refine ⟨hdiag, ?_, ?_⟩
    · intro i' x hle
      rcases Nat.lt_or_ge i' i with h | h
      · exact hdoneRows i' x h
      · have hii : i' = i := by omega
        subst hii
        by_cases hx : x ∈ b2j a (charAt a i')
        · exact hdoneRow x hx (by simp)
        · rw [segRunLen_eq_zero_of_not_mem hx]
          exact Nat.zero_le _
    · intro x
      by_cases hx : x ∈ b2j a (charAt a i)
      · rw [hacc x, if_pos ⟨hx, by simp⟩]
      · rw [hacc x, if_neg (by simp [hx]), segRunLen_eq_zero_of_not_mem hx]
  | cons j js ih =>
    intro acc best hsort hsub hdoneRow hdoneRows hdiag hacc
    have hgj : j ∈ b2j a (charAt a i) := hsub j (List.mem_cons_self j js)
    obtain ⟨hpop, hjlen, hget⟩ := b2j_mem hgj
    obtain ⟨hjlt, hsort'⟩ := List.pairwise_cons.mp hsort
    simp only [scanRow, Nat.not_lt_zero, if_false, if_neg (Nat.not_le_of_lt hjlen)]
    have hkj : (if j = 0 then 0 else lookupD p (j - 1)) + 1 = segRunLen a a i j := by
      conv_rhs => rw [segRunLen]
      rw [if_pos hgj]
      by_cases hj0 : j = 0
      · by_cases hi0 : i = 0 <;> simp [hj0, hi0]
      · by_cases hi0 : i = 0
        · simp [hj0, hi0, hp]
        · rw [if_neg hj0, hp (j - 1), if_neg hi0, if_neg (by omega : ¬ (i = 0 ∨ j = 0))]
    rw [hkj]
    have hjs_not : j ∉ js := fun hmem => Nat.lt_irrefl j (hjlt j hmem)
    by_cases hupd : best.bestsize < segRunLen a a i j
    · rw [if_pos hupd]
      have hji : j = i := by
        rcases Nat.lt_trichotomy j i with hlt | heq | hgt
        · exfalso
          have h1 := hdoneRows j j hlt
          have h2 := segRunLen_le_diag_left a i j (Nat.le_of_lt hlt)
          omega
        · exact heq
        · exfalso
          have hmemi : i ∈ b2j a (charAt a i) := mem_b2j hpop hi (get?_charAt hi)
          have hnot : i ∉ j :: js := by
            intro hmem
            rcases List.mem_cons.mp hmem with h | h
            · omega
            · exact Nat.lt_irrefl i (Nat.lt_trans hgt (hjlt i h))
          have h1 := hdoneRow i hmemi hnot
          have h2 := segRunLen_le_diag_right a i j (Nat.le_of_lt hgt) hi
          omega
      subst hji
      apply ih _ _ hsort' (fun x hx => hsub x (List.mem_cons_of_mem j hx))
      · intro x hx hnx
        by_cases hxj : x = j
        · subst hxj
          simp
        · have := hdoneRow x hx (by simp [hxj, hnx])
          simp only
          omega
      · intro i' x hlt
        have := hdoneRows i' x hlt
        simp only
        omega
      · simp
      · intro x
        rw [lookupD_cons]
        by_cases hx : j = x
        · subst hx
          rw [if_pos rfl, if_pos ⟨hgj, hjs_not⟩]
        · rw [if_neg hx, hacc x]
          have hcond : (x ∈ b2j a (charAt a j) ∧ x ∉ j :: js)
              ↔ (x ∈ b2j a (charAt a j) ∧ x ∉ js) := by
            simp only [List.mem_cons]
            constructor
            · rintro ⟨h1, h2⟩
              exact ⟨h1, fun hmem => h2 (Or.inr hmem)⟩
            · rintro ⟨h1, h2⟩
              refine ⟨h1, ?_⟩
              rintro (h | h)
              · exact hx h.symm
              · exact h2 h
          by_cases hc : x ∈ b2j a (charAt a j) ∧ x ∉ js
          · rw [if_pos (hcond.mpr hc), if_pos hc]
          · rw [if_neg (fun h => hc (hcond.mp h)), if_neg hc]
    · rw [if_neg hupd]
      apply ih _ _ hsort' (fun x hx => hsub x (List.mem_cons_of_mem j hx))
      · intro x hx hnx
        by_cases hxj : x = j
        · subst hxj
          omega
        · exact hdoneRow x hx (by simp [hxj, hnx])
      · exact hdoneRows
      · exact hdiag
      · intro x
        rw [lookupD_cons]
        by_cases hx : j = x
        · subst hx
          rw [if_pos rfl, if_pos ⟨hgj, hjs_not⟩]
        · rw [if_neg hx, hacc x]
          have hcond : (x ∈ b2j a (charAt a i) ∧ x ∉ j :: js)
              ↔ (x ∈ b2j a (charAt a i) ∧ x ∉ js) := by
            simp only [List.mem_cons]
            constructor
            · rintro ⟨h1, h2⟩
              exact ⟨h1, fun hmem => h2 (Or.inr hmem)⟩
            · rintro ⟨h1, h2⟩
              refine ⟨h1, ?_⟩
              rintro (h | h)
              · exact hx h.symm
              · exact h2 h
          by_cases hc : x ∈ b2j a (charAt a i) ∧ x ∉ js
          · rw [if_pos (hcond.mpr hc), if_pos hc]
          · rw [if_neg (fun h => hc (hcond.mp h)), if_neg hc]

/-- The full scan on identical sequences ends with a diagonal best block. -/
theorem scanRowsSym (a : Seq) :
    ∀ (m i : Nat) (p : List (Nat × Nat)) (best : Best),
    i + m = a.length →
    (∀ x, lookupD p x = if i = 0 then 0 else segRunLen a a (i - 1) x) →
    best.besti = best.bestj →
    (∀ i' x : Nat, i' < i → segRunLen a a i' x ≤ best.bestsize) →
    (scanRows a a 0 a.length (List.range' i m) p best).besti
      = (scanRows a a 0 a.length (List.range' i m) p best).bestj := by
  intro m
  induction m with
  | zero =>
    intro i p best _ _ hdiag _
    simpa [scanRows] using hdiag
  | succ m ih =>
    intro i p best hsum hp hdiag hrows
    have hi : i < a.length := by omega
    simp only [List.range'_succ, scanRows]
    have hrow := scanRowSym a i hi p hp (b2j a (charAt a i)) [] best
      (b2j_pairwise a (charAt a i)) (fun _ hx => hx)
      (fun x hx hnx => absurd hx hnx)
      hrows hdiag
      (fun x => by
        rw [lookupD_nil, if_neg]
        rintro ⟨h1, h2⟩
        exact h2 h1)
    apply ih (i + 1) _ _ (by omega)
    · intro x
      rw [if_neg (by omega : ¬ i + 1 = 0)]
      simpa using hrow.2.2 x
    · exact hrow.1
    · intro i' x hlt
      rcases Nat.lt_or_ge i' i with h | h
      · exact hrow.2.1 i' x (Nat.le_of_lt h)
      · have : i' = i := by omega
        subst this
        exact hrow.2.1 i' x (Nat.le_refl _)

theorem extendLeft_diag (a : Seq) :
    ∀ (m s : Nat), extendLeft a a (fun _ => false) 0 0 ⟨m, m, s⟩ = ⟨0, 0, s + m⟩ := by
  intro m
  induction m with
  | zero =>
    intro s
    rw [extendLeft]
    simp
  | succ m ih =>
    intro s
    rw [extendLeft]
    rw [if_pos ⟨Nat.succ_pos m, Nat.succ_pos m, rfl, rfl⟩]
    simp only [Nat.add_sub_cancel]
    rw [ih (s + 1)]
    have : s + 1 + m = s + (m + 1) := by omega
    rw [this]

theorem extendRight_diag (a : Seq) (n : Nat) :
    ∀ (d t : Nat), t + d = n →
    extendRight a a (fun _ => false) n n ⟨0, 0, t⟩ = ⟨0, 0, n⟩ := by
  intro d
  induction d with
  | zero =>
    intro t ht
    have htn : t = n := by omega
    subst htn
    rw [extendRight]
    simp
  | succ d ih =>
    intro t ht
    rw [extendRight]
    rw [if_pos ⟨show 0 + t < n by omega, show 0 + t < n by omega, rfl, rfl⟩]
    exact ih (t + 1) (by omega)

/-- On identical sequences, `find_longest_match` over the full square segment
returns the full diagonal block. -/
theorem flm_self (a : Seq) :
    findLongestMatch a a 0 a.length 0 a.length = ⟨0, 0, a.length⟩ := by
  unfold findLongestMatch
  simp only [extendLeftJunk_false, extendRightJunk_false, Nat.sub_zero]
  have hdiag := scanRowsSym a a.length 0 [] ⟨0, 0, 0⟩ (by omega)
    (fun x => by rw [lookupD_nil, if_pos rfl])
    rfl
    (fun i' x h => absurd h (Nat.not_lt_zero i'))
  have hinv : BestInv 0 0 a.length a.length
      (scanRows a a 0 a.length (List.range' 0 a.length) [] ⟨0, 0, 0⟩) := by
    apply scanRows_inv a a 0 0 a.length a.length a.length 0 [] ⟨0, 0, 0⟩
      (Nat.le_refl _) (by omega) (MapBound_nil 0 0 0 (Nat.le_refl _))
    exact BestInv_mk (Nat.le_refl _) (Nat.le_refl _) (by omega) (fun _ => ⟨rfl, rfl⟩)
  cases hscn : scanRows a a 0 a.length (List.range' 0 a.length) [] ⟨0, 0, 0⟩ with
  | mk m m2 s =>
    rw [hscn] at hdiag hinv
    have hdd : m = m2 := hdiag
    subst hdd
    obtain ⟨h1, h2, h3, h4⟩ := BestInv_elim hinv
    rw [extendLeft_diag]
    have hsm : s + m ≤ a.length := by
      rcases Nat.eq_zero_or_pos s with hz | hpos
      · have := h4 hz
        omega
      · have := h3 hpos
        omega
    exact extendRight_diag a a.length (a.length - (s + m)) (s + m) (by omega)

/-- On identical sequences the matching blocks cover everything. -/
theorem matchesInSegment_self (a : Seq) :
    matchesInSegment a a 0 a.length 0 a.length = a.length := by
  rw [← matchesInSegmentF_fuel a a (a.length + 1) 0 a.length 0 a.length (by omega)]
  simp only [matchesInSegmentF, flm_self]
  by_cases h : a.length = 0 <;> simp [h]

/-- `ratio(a, a) = 1`, including the autojunk regime and the empty sequence. -/
theorem ratioQ_self (a : Seq) : ratioQ a a = 1 := by
  unfold ratioQ
  rcases Nat.eq_zero_or_pos a.length with hz | hpos
  · simp [hz]
  · rw [if_neg (by omega), matchesInSegment_self]
    rw [div_eq_one_iff_eq (by exact_mod_cast (by omega : ¬ a.length + a.length = 0))]
    push_cast
    ring

end Difflib

/-! ### The alignment loop: first-argmax behaviour -/

theorem sbdLoop_append (T g : Seq) (l₁ l₂ : List Nat) (st : LoopSt) :
    sbdLoop T g (l₁ ++ l₂) st = sbdLoop T g l₂ (sbdLoop T g l₁ st) := by
  induction l₁ generalizing st with
  | nil => rfl
  | cons i is ih =>
    simp only [List.cons_append, sbdLoop]
    exact ih _

theorem sbdLoop_single (T g : Seq) (i : Nat) (st : LoopSt) :
    sbdLoop T g [i] st =
      if st.bestIndex = none ∨ st.bestRatio < Difflib.ratioQ (T.take i) g
      then ⟨some i, Difflib.ratioQ (T.take i) g⟩ else st := rfl

/-- The loop over `range(n)` ends with `best_index = None` exactly for `n = 0`;
otherwise `best_index` is the first index attaining the maximal ratio (strict
improvement keeps the earliest maximiser) and `best_ratio` is its ratio. -/
theorem sbdLoop_range_spec (T g : Seq) :
    ∀ n : Nat,
    (n = 0 ∧ sbdLoop T g (List.range n) ⟨none, 0⟩ = ⟨none, 0⟩) ∨
    (∃ b : Nat,
      sbdLoop T g (List.range n) ⟨none, 0⟩ = ⟨some b, Difflib.ratioQ (T.take b) g⟩ ∧
      b < n ∧
      (∀ j, j < n → Difflib.ratioQ (T.take j) g ≤ Difflib.ratioQ (T.take b) g) ∧
      (∀ j, j < b → Difflib.ratioQ (T.take j) g < Difflib.ratioQ (T.take b) g)) := by
  intro n
  induction n with
  | zero => exact Or.inl ⟨rfl, rfl⟩
  | succ n ih =>
    right
    rw [List.range_succ, sbdLoop_append]
    rcases ih with ⟨hn0, heq⟩ | ⟨b, heq, hbn, hmax, hfirst⟩
    · subst hn0
      rw [heq, sbdLoop_single]
      rw [if_pos (Or.inl rfl)]
      refine ⟨0, rfl, Nat.zero_lt_one, ?_, ?_⟩
      · intro j hj
        have : j = 0 := by omega
        subst this
        exact le_refl _
      · intro j hj
        exact absurd hj (Nat.not_lt_zero j)
    · rw [heq, sbdLoop_single]
      have hcond : ((⟨some b, Difflib.ratioQ (T.take b) g⟩ : LoopSt).bestIndex = none ∨
          (⟨some b, Difflib.ratioQ (T.take b) g⟩ : LoopSt).bestRatio
            < Difflib.ratioQ (T.take n) g) ↔
          Difflib.ratioQ (T.take b) g < Difflib.ratioQ (T.take n) g := by
        constructor
        · rintro (h | h)
          · exact absurd h (by simp)
          · exact h
        · exact Or.inr
      by_cases hlt : Difflib.ratioQ (T.take b) g < Difflib.ratioQ (T.take n) g
      · rw [if_pos (hcond.mpr hlt)]
        refine ⟨n, rfl, by omega, ?_, ?_⟩
        · intro j hj
          rcases Nat.lt_or_ge j n with h | h
          · exact le_of_lt (lt_of_le_of_lt (hmax j h) hlt)
          · have : j = n := by omega
            subst this
            exact le_refl _
        · intro j hj
          exact lt_of_le_of_lt (hmax j hj) hlt
      · rw [if_neg (fun h => hlt (hcond.mp h))]
        refine ⟨b, rfl, by omega, ?_, hfirst⟩
        intro j hj
        rcases Nat.lt_or_ge j n with h | h
        · exact hmax j h
        · have : j = n := by omega
          subst this
          exact not_lt.mp hlt

/-! ### Behaviour of `process_seq2seq_sbd` -/

theorem process_eq_of_find (T guess : String) (m : Nat)
    (hfind : strFind guess.data SENTENCE_BOUNDARY_TOKEN.data = some m) :
    process_seq2seq_sbd T guess =
      match (sbdLoop T.data (guess.data.take m)
          (List.range T.data.length) ⟨none, 0⟩).bestIndex with
      | some i => some (i : Int)
      | none => none := by
  unfold process_seq2seq_sbd alignmentIndices
  rw [hfind]

/-- With the marker absent, `process_seq2seq_sbd` returns `-1`. -/
theorem process_of_find_none (T guess : String)
    (hfind : strFind guess.data SENTENCE_BOUNDARY_TOKEN.data = none) :
    process_seq2seq_sbd T guess = some (-1) := by
  unfold process_seq2seq_sbd
  rw [hfind]

/-- With the marker present, any integer returned lies in `[0, len T]`
(it in fact lies in `[0, len T)`, see `process_lt_length`). -/
theorem process_bounds (T guess : String)
    (hm : strFind guess.data SENTENCE_BOUNDARY_TOKEN.data ≠ none) (i : Int)
    (h : process_seq2seq_sbd T guess = some i) (hne : i ≠ -1) :
    0 ≤ i ∧ i ≤ (T.data.length : Int) := by
  obtain ⟨m, hfind⟩ := Option.ne_none_iff_exists'.mp hm
  rw [process_eq_of_find T guess m hfind] at h
  rcases sbdLoop_range_spec T.data (guess.data.take m) T.data.length with
    ⟨hn0, heq⟩ | ⟨b, heq, hbn, hmax, hfirst⟩
  · rw [heq] at h
    exact Option.noConfusion (h : (none : Option Int) = some i)
  · rw [heq] at h
    have hib : i = ((b : Nat) : Int) :=
      (Option.some.inj (h : some ((b : Nat) : Int) = some i)).symm
    subst hib
    constructor
    · exact Int.ofNat_nonneg b
    · exact_mod_cast Nat.le_of_lt hbn

/-- With the marker present and a non-empty input, the returned index is a
natural number strictly below `len T`. -/
theorem process_lt_length (T guess : String)
    (hm : strFind guess.data SENTENCE_BOUNDARY_TOKEN.data ≠ none) (i : Int)
    (hT : T.data ≠ []) (h : process_seq2seq_sbd T guess = some i) :
    0 ≤ i ∧ i < (T.data.length : Int) := by
  obtain ⟨m, hfind⟩ := Option.ne_none_iff_exists'.mp hm
  rw [process_eq_of_find T guess m hfind] at h
  rcases sbdLoop_range_spec T.data (guess.data.take m) T.data.length with
    ⟨hn0, heq⟩ | ⟨b, heq, hbn, hmax, hfirst⟩
  · exact absurd (List.length_eq_zero.mp hn0) hT
  · rw [heq] at h
    have hib : i = ((b : Nat) : Int) :=
      (Option.some.inj (h : some ((b : Nat) : Int) = some i)).symm
    subst hib
    exact ⟨Int.ofNat_nonneg b, by exact_mod_cast hbn⟩

/-- With the marker present, the returned index is a first argmax of the
similarity ratio: no candidate beats it, and every smaller index is strictly
worse. -/
theorem process_first_argmax (T guess : String)
    (hm : strFind guess.data SENTENCE_BOUNDARY_TOKEN.data ≠ none) (i : Nat)
    (h : process_seq2seq_sbd T guess = some (i : Int)) :
    (∀ j, j < T.data.length →
      Difflib.ratioQ (T.data.take j) (translatedGuess guess)
        ≤ Difflib.ratioQ (T.data.take i) (translatedGuess guess)) ∧
    (∀ j, j < i →
      Difflib.ratioQ (T.data.take j) (translatedGuess guess)
        < Difflib.ratioQ (T.data.take i) (translatedGuess guess)) := by
  obtain ⟨m, hfind⟩ := Option.ne_none_iff_exists'.mp hm
  have htg : translatedGuess guess = guess.data.take m := by
    unfold translatedGuess
    rw [hfind]
  rw [process_eq_of_find T guess m hfind] at h
  rcases sbdLoop_range_spec T.data (guess.data.take m) T.data.length with
    ⟨hn0, heq⟩ | ⟨b, heq, hbn, hmax, hfirst⟩
  · rw [heq] at h
    exact Option.noConfusion (h : (none : Option Int) = some (i : Int))
  · rw [heq] at h
    have hib : b = i := by
      have := Option.some.inj (h : some ((b : Nat) : Int) = some ((i : Nat) : Int))
      exact_mod_cast this
    subst hib
    rw [htg]
    exact ⟨hmax, hfirst⟩

/-- Identity alignment: when the translated guess (the prefix of the candidate
guess before the first marker occurrence) equals `T[0:k]` for a `k < len T`,
the alignment search returns exactly `k`. -/
theorem process_identity (T guess : String) (k : Nat)
    (hfind : strFind guess.data SENTENCE_BOUNDARY_TOKEN.data = some k)
    (heq : guess.data.take k = T.data.take k) (hk : k < T.data.length) :
    process_seq2seq_sbd T guess = some (k : Int) := by
  rw [process_eq_of_find T guess k hfind]
  have htk : (T.data.take k).length = k := by
    rw [List.length_take]
    omega
  have hself : Difflib.ratioQ (T.data.take k) (guess.data.take k) = 1 := by
    rw [heq]
    exact Difflib.ratioQ_self _
  have hother : ∀ j, j < T.data.length → j ≠ k →
      Difflib.ratioQ (T.data.take j) (guess.data.take k) < 1 := by
    intro j hj hjk
    apply Difflib.ratioQ_lt_one_of_length_ne
    rw [heq, List.length_take, List.length_take]
    omega
  rcases sbdLoop_range_spec T.data (guess.data.take k) T.data.length with
    ⟨hn0, heq'⟩ | ⟨b, heq', hbn, hmax, hfirst⟩
  · exact absurd hk (by omega)
  · rw [heq']
    have hbk : b = k := by
      by_contra hne
      have h1 := hmax k hk
      have h2 := hother b hbn hne
      rw [hself] at h1
      exact absurd h1 (not_le.mpr h2)
    show some ((b : Nat) : Int) = some ((k : Nat) : Int)
    rw [hbk]

/-- On a one-character input with the marker present, the loop tries only
`i = 0`, so the result is `some 0`. -/
theorem process_length_one (T guess : String) (m : Nat)
    (hfind : strFind guess.data SENTENCE_BOUNDARY_TOKEN.data = some m)
    (hT : T.data.length = 1) :
    process_seq2seq_sbd T guess = some 0 := by
  rw [process_eq_of_find T guess m hfind]
  rcases sbdLoop_range_spec T.data (guess.data.take m) T.data.length with
    ⟨hn0, _⟩ | ⟨b, heq, hbn, _, _⟩
  · rw [hT] at hn0
    exact absurd hn0 one_ne_zero
  · rw [heq]
    have hb0 : b = 0 := by omega
    show some ((b : Nat) : Int) = some 0
    rw [hb0]
    rfl

/-! ### Parser and prompt-builder equivalences -/

theorem alignmentIndices_mem (T : String) (i : Nat) :
    i ∈ alignmentIndices T ↔ i < T.data.length := by
  simp [alignmentIndices, List.mem_range]

theorem parse_eq_spec (r : String) :
    parse_fewshot_response r = parse_fewshot_response_spec r := by
  unfold parse_fewshot_response parse_fewshot_response_spec
  dsimp only
  set segs := pySplit FEWSHOT_BOUNDARY_TOKEN.data r.data with hsegs
  cases hr : segs.reverse with
  | nil =>
    have hlen : segs.length = 0 := by simpa using congrArg List.length hr
    rw [if_pos (by omega)]
  | cons a t =>
    cases t with
    | nil =>
      have hlen : segs.length = 1 := by simpa using congrArg List.length hr
      rw [if_pos (by omega)]
    | cons b t2 =>
      have hlen : segs.length = t2.length + 2 := by
        have := congrArg List.length hr
        simp at this
        omega
      have hsegseq : segs = t2.reverse ++ [b, a] := by
        have := congrArg List.reverse hr
        simpa [List.reverse_cons, List.append_assoc] using this
      rw [if_neg (by omega)]
      have hget : segs.getD (segs.length - 2) [] = b := by
        rw [hlen, hsegseq]
        have hidx : t2.length + 2 - 2 = t2.reverse.length := by simp
        rw [hidx, List.getD_append_right _ _ _ _ (Nat.le_refl _)]
        simp
      rw [hget]
      change _ = match (pySplit ['\n'] b).reverse with
        | lastLine :: _ :: _ => some (String.mk lastLine)
        | _ => none
      cases hl : (pySplit ['\n'] b).reverse with
      | nil =>
        have hllen : (pySplit ['\n'] b).length = 0 := by
          simpa using congrArg List.length hl
        rw [if_pos (by omega)]
      | cons c u =>
        cases u with
        | nil =>
          have hllen : (pySplit ['\n'] b).length = 1 := by
            simpa using congrArg List.length hl
          rw [if_pos (by omega)]
        | cons dd u2 =>
          have hllen : (pySplit ['\n'] b).length = u2.length + 2 := by
            have := congrArg List.length hl
            simp at this
            omega
          have hlineseq : pySplit ['\n'] b = u2.reverse ++ [dd, c] := by
            have := congrArg List.reverse hl
            simpa [List.reverse_cons, List.append_assoc] using this
          rw [if_neg (by omega)]
          have hlast : (pySplit ['\n'] b).getD ((pySplit ['\n'] b).length - 1) [] = c := by
            rw [hllen, hlineseq]
            have hidx : u2.length + 2 - 1 = (u2.reverse ++ [dd]).length := by simp
            have hassoc : u2.reverse ++ [dd, c] = (u2.reverse ++ [dd]) ++ [c] := by simp
            rw [hassoc, hidx, List.getD_append_right _ _ _ _ (Nat.le_refl _)]
            simp
          rw [hlast]

theorem generate_eq_spec (input : String) (n : Nat) :
    generate_fewshot_sbd_prompt input n = fewshot_sbd_prompt_spec input n := by
  unfold generate_fewshot_sbd_prompt fewshot_sbd_prompt_spec
  have h : ("<detect-sentence-boundaries> " : String)
      = DETECT_SENTENCE_BOUNDARIES_TOKEN ++ " " := by decide
  rw [h, String.append_assoc, String.append_assoc]

/-! ## The claims -/

/-- C1 (corrected): on the end-to-end example — text
`"I walked down to the river. Then I went to the store."`, guess window 150,
stub translation returning
`"I walked down to the river.<sentence-boundary> Then I went"` —
`detect_sentence` returns index 27, the offset immediately after
`"I walked down to the river."` (27 characters long), not 28 as claimed. -/
theorem C1_end_to_end_returns_27 :
    detect_sentence riverText riverStub 150 = some 27 := by
  have hd : detect_sentence riverText riverStub 150
      = process_seq2seq_sbd riverText
          "I walked down to the river.<sentence-boundary> Then I went" := rfl
  rw [hd]
  exact process_identity riverText _ 27 (by decide) (by decide) (by decide)

/-- C1, counterexample: the example does not return 28 (it returns 27). -/
theorem C1_end_to_end_not_28 :
    detect_sentence riverText riverStub 150 ≠ some 28 := by
  have hd : detect_sentence riverText riverStub 150
      = process_seq2seq_sbd riverText
          "I walked down to the river.<sentence-boundary> Then I went" := rfl
  rw [hd, process_identity riverText _ 27 (by decide) (by decide) (by decide)]
  decide

/-- C2 (corrected): the alignment search tries exactly the prefix lengths
`i` with `0 ≤ i < len(original)` (`range(len(input_text))`); the full original
text `i = len(original)` is not among the candidates. -/
theorem C2_candidate_indices (T : String) (i : Nat) :
    i ∈ alignmentIndices T ↔ i < T.data.length :=
  alignmentIndices_mem T i

/-- C2, counterexample: for original `"a"`, the claimed candidate set
`{0, ..., len}` contains `len = 1`, but the loop of `process_seq2seq_sbd` does
not try it. -/
theorem C2_full_length_not_tried :
    ("a" : String).data.length ∈ claimedAlignmentIndices "a" ∧
    ("a" : String).data.length ∉ alignmentIndices "a" := by
  decide

/-- C3 (code bug): locating a boundary in an empty original text with a
marker-containing guess returns Python `None` (`best_index` is never set),
not the documented sentinel `-1`. -/
theorem C3_empty_input_gives_none :
    process_seq2seq_sbd "" "<sentence-boundary>" = none ∧
    process_seq2seq_sbd "" "<sentence-boundary>" ≠ some (-1) := by
  decide

/-- C4 (corrected): identity alignment holds for proper prefixes: if the
first marker occurrence in the candidate guess is at index `k`, the first `k` characters of the
guess equal `T[0:k]` (so the translated guess is exactly
`T[0:k]`), and `k < len(T)`, then `process_seq2seq_sbd` returns `k`.  For
`k = len(T)` the claim fails (see the counterexample): the loop stops at
`len(T) - 1`. -/
theorem C4_identity_alignment (T guess : String) (k : Nat)
    (hfind : strFind guess.data SENTENCE_BOUNDARY_TOKEN.data = some k)
    (heq : guess.data.take k = T.data.take k) (hk : k < T.data.length) :
    process_seq2seq_sbd T guess = some (k : Int) :=
  process_identity T guess k hfind heq hk

/-- C4, witness: `T = "xy"`, guess `"x<sentence-boundary>"`, `k = 1`. -/
theorem C4_identity_alignment_witness :
    strFind ("x<sentence-boundary>" : String).data SENTENCE_BOUNDARY_TOKEN.data = some 1 ∧
    ("x<sentence-boundary>" : String).data.take 1 = ("xy" : String).data.take 1 ∧
    1 < ("xy" : String).data.length ∧
    process_seq2seq_sbd "xy" "x<sentence-boundary>" = some 1 :=
  ⟨by decide, by decide, by decide,
    C4_identity_alignment "xy" "x<sentence-boundary>" 1 (by decide) (by decide) (by decide)⟩

/-- C4, counterexample: for `T = "a"` and guess `"a<sentence-boundary>"`
(`k = 1 = len(T)`, translated guess equals `T[0:1]` exactly) the claim
demands index 1, but the code returns 0. -/
theorem C4_full_prefix_fails :
    process_seq2seq_sbd "a" "a<sentence-boundary>" = some 0 ∧
    process_seq2seq_sbd "a" "a<sentence-boundary>" ≠ some 1 := by
  have h := process_length_one "a" "a<sentence-boundary>" 1 (by decide) (by decide)
  rw [h]
  exact ⟨rfl, by decide⟩

/-- C5 (corrected): bounds invariant restricted to non-empty texts — for every
non-empty text `T` and every candidate guess containing the boundary marker,
the value returned by `process_seq2seq_sbd`, whenever it is not the sentinel
`-1`, is an integer satisfying `0 ≤ index ≤ len(T)`.  For empty `T` the claim
fails: the code returns Python `None`, which is neither `-1` nor an in-bounds
integer (see the counterexample and claim C3). -/
theorem C5_bounds_invariant (T guess : String) (i : Int)
    (hm : strFind guess.data SENTENCE_BOUNDARY_TOKEN.data ≠ none)
    (hT : T.data ≠ [])
    (h : process_seq2seq_sbd T guess = some i) (hne : i ≠ -1) :
    0 ≤ i ∧ i ≤ (T.data.length : Int) :=
  process_bounds T guess hm i h hne

/-- C5, witness: `T = "ab"` (non-empty), guess `"a<sentence-boundary>"`,
index 1. -/
theorem C5_bounds_invariant_witness :
    strFind ("a<sentence-boundary>" : String).data SENTENCE_BOUNDARY_TOKEN.data ≠ none ∧
    ("ab" : String).data ≠ [] ∧
    process_seq2seq_sbd "ab" "a<sentence-boundary>" = some 1 ∧
    (1 : Int) ≠ -1 ∧
    (0 ≤ (1 : Int) ∧ (1 : Int) ≤ (("ab" : String).data.length : Int)) :=
  ⟨by decide, by decide,
    process_identity "ab" "a<sentence-boundary>" 1 (by decide) (by decide) (by decide),
    by decide,
    C5_bounds_invariant "ab" "a<sentence-boundary>" 1 (by decide) (by decide)
      (process_identity "ab" "a<sentence-boundary>" 1 (by decide) (by decide) (by decide))
      (by decide)⟩

/-- C5, counterexample: at `T = ""` with the marker-containing guess
`"<sentence-boundary>"`, the returned value is Python `None` — it is not the
sentinel `-1`, and it is not an integer index at all, so the claim as stated
(quantified over every text `T`) fails here. -/
theorem C5_empty_text_not_an_integer :
    strFind ("<sentence-boundary>" : String).data SENTENCE_BOUNDARY_TOKEN.data ≠ none ∧
    process_seq2seq_sbd "" "<sentence-boundary>" = none ∧
    (none : Option Int) ≠ some (-1) := by
  decide

/-- C6 (confirmed): when the boundary marker token does not occur in the
candidate guess, `process_seq2seq_sbd` returns the sentinel `-1` for every
non-empty original text (indeed for every text: the alignment search is never
entered). -/
theorem C6_sentinel_no_marker (T guess : String) (hT : T.data ≠ [])
    (hfind : strFind guess.data SENTENCE_BOUNDARY_TOKEN.data = none) :
    process_seq2seq_sbd T guess = some (-1) :=
  process_of_find_none T guess hfind

/-- C6, witness: `T = "a"`, guess `"x"`. -/
theorem C6_sentinel_no_marker_witness :
    ("a" : String).data ≠ [] ∧
    strFind ("x" : String).data SENTENCE_BOUNDARY_TOKEN.data = none ∧
    process_seq2seq_sbd "a" "x" = some (-1) :=
  ⟨by decide, by decide, C6_sentinel_no_marker "a" "x" (by decide) (by decide)⟩

/-- C7 (confirmed): `parse_fewshot_response` splits the raw response on the
ten-dash separator, returns `None` below 2 segments, else takes the
second-to-last segment, splits it on newlines, returns `None` below 2 lines,
else returns the last line of that segment — provably equal to the spec-side
formulation through reversed lists. -/
theorem C7_parser_behaviour (r : String) :
    parse_fewshot_response r = parse_fewshot_response_spec r :=
  parse_eq_spec r

/-- C8 (confirmed): for every input text and guess length the prompt builder
returns exactly the fixed few-shot exemplar block verbatim, followed by the
control token, a single space, and the first `sentence_guess_length` characters
of the input; being an equation between pure functions, the output is fully
deterministic. -/
theorem C8_prompt_shape (input_text : String) (sentence_guess_length : Nat) :
    generate_fewshot_sbd_prompt input_text sentence_guess_length
      = fewshot_sbd_prompt_spec input_text sentence_guess_length :=
  generate_eq_spec input_text sentence_guess_length

/-- C9 (confirmed): with the marker present, the index returned by the
alignment search attains the maximal similarity ratio over all candidate
prefixes, and every smaller index has a strictly smaller ratio — so among tied
maximisers the smallest index is returned (strict `>` comparison). -/
theorem C9_tie_break (T guess : String) (i : Nat)
    (hm : strFind guess.data SENTENCE_BOUNDARY_TOKEN.data ≠ none)
    (h : process_seq2seq_sbd T guess = some (i : Int)) :
    (∀ j, j < T.data.length →
      Difflib.ratioQ (T.data.take j) (translatedGuess guess)
        ≤ Difflib.ratioQ (T.data.take i) (translatedGuess guess)) ∧
    (∀ j, j < i →
      Difflib.ratioQ (T.data.take j) (translatedGuess guess)
        < Difflib.ratioQ (T.data.take i) (translatedGuess guess)) :=
  process_first_argmax T guess hm i h

/-- C9, witness: `T = "ab"`, guess `"<sentence-boundary>"` (empty translated
guess); the returned index 0 dominates candidate 1. -/
theorem C9_tie_break_witness :
    strFind ("<sentence-boundary>" : String).data SENTENCE_BOUNDARY_TOKEN.data ≠ none ∧
    process_seq2seq_sbd "ab" "<sentence-boundary>" = some 0 ∧
    Difflib.ratioQ (("ab" : String).data.take 1) (translatedGuess "<sentence-boundary>")
      ≤ Difflib.ratioQ (("ab" : String).data.take 0) (translatedGuess "<sentence-boundary>") :=
  ⟨by decide,
    process_identity "ab" "<sentence-boundary>" 0 (by decide) rfl (by decide),
    (C9_tie_break "ab" "<sentence-boundary>" 0 (by decide)
      (process_identity "ab" "<sentence-boundary>" 0 (by decide) rfl (by decide))).1
      1 (by decide)⟩

/-- C10 (confirmed): with the marker present and a non-empty input text, the
returned index is strictly below `len(input_text)`: only `0` through
`len(input_text) - 1` are possible. -/
theorem C10_index_lt_length (T guess : String) (i : Int)
    (hm : strFind guess.data SENTENCE_BOUNDARY_TOKEN.data ≠ none)
    (hT : T.data ≠ []) (h : process_seq2seq_sbd T guess = some i) :
    0 ≤ i ∧ i < (T.data.length : Int) :=
  process_lt_length T guess hm i hT h

/-- C10, witness: `T = "cd"`, guess `"<sentence-boundary>"`, index 0. -/
theorem C10_index_lt_length_witness :
    strFind ("<sentence-boundary>" : String).data SENTENCE_BOUNDARY_TOKEN.data ≠ none ∧
    ("cd" : String).data ≠ [] ∧
    process_seq2seq_sbd "cd" "<sentence-boundary>" = some 0 ∧
    (0 ≤ (0 : Int) ∧ (0 : Int) < (("cd" : String).data.length : Int)) :=
  ⟨by decide, by decide,
    process_identity "cd" "<sentence-boundary>" 0 (by decide) rfl (by decide),
    C10_index_lt_length "cd" "<sentence-boundary>" 0 (by decide) (by decide)
      (process_identity "cd" "<sentence-boundary>" 0 (by decide) rfl (by decide))⟩

end ArgosSBD
